import Mathlib

/-!
Shallow embedding of the `rust-tracer` path tracer.

Machine `f64` arithmetic is embedded as exact real arithmetic (`ℝ`); the
upper intersection bound `t_max`, which the driver passes as
`f64::INFINITY`, is embedded as `WithTop ℝ` with `⊤` for infinity.
Randomness (the rejection samplers of `vec.rs` and the uniform draw of the
dielectric branch) is embedded as explicit draw arguments.
-/

/-- 3D vector of reals, embedding `cgmath::Vector3<f64>` (`vec.rs` and
`cgmath` operations used by the tracer). -/
structure Vec3 where
  x : ℝ
  y : ℝ
  z : ℝ

namespace Vec3

noncomputable instance : Add Vec3 := ⟨fun a b => ⟨a.x + b.x, a.y + b.y, a.z + b.z⟩⟩

noncomputable instance : Sub Vec3 := ⟨fun a b => ⟨a.x - b.x, a.y - b.y, a.z - b.z⟩⟩

noncomputable instance : Neg Vec3 := ⟨fun a => ⟨-a.x, -a.y, -a.z⟩⟩

noncomputable instance : SMul ℝ Vec3 := ⟨fun r a => ⟨r * a.x, r * a.y, r * a.z⟩⟩

/-- `cgmath` componentwise vector-by-scalar division. -/
noncomputable instance : HDiv Vec3 ℝ Vec3 := ⟨fun a r => ⟨a.x / r, a.y / r, a.z / r⟩⟩

/-- `cgmath::InnerSpace::dot`. -/
noncomputable def dot (a b : Vec3) : ℝ := a.x * b.x + a.y * b.y + a.z * b.z

/-- `cgmath::InnerSpace::magnitude2`: squared length. -/
noncomputable def magnitude2 (a : Vec3) : ℝ := a.dot a

/-- `cgmath::InnerSpace::magnitude`. -/
noncomputable def magnitude (a : Vec3) : ℝ := Real.sqrt a.magnitude2

/-- `cgmath::InnerSpace::normalize`: `v / |v|`. -/
noncomputable def normalize (a : Vec3) : Vec3 := a / a.magnitude

@[simp] lemma add_x (a b : Vec3) : (a + b).x = a.x + b.x := rfl

@[simp] lemma add_y (a b : Vec3) : (a + b).y = a.y + b.y := rfl

@[simp] lemma add_z (a b : Vec3) : (a + b).z = a.z + b.z := rfl

@[simp] lemma sub_x (a b : Vec3) : (a - b).x = a.x - b.x := rfl

@[simp] lemma sub_y (a b : Vec3) : (a - b).y = a.y - b.y := rfl

@[simp] lemma sub_z (a b : Vec3) : (a - b).z = a.z - b.z := rfl

@[simp] lemma neg_x (a : Vec3) : (-a).x = -a.x := rfl

@[simp] lemma neg_y (a : Vec3) : (-a).y = -a.y := rfl

@[simp] lemma neg_z (a : Vec3) : (-a).z = -a.z := rfl

@[simp] lemma smul_x (r : ℝ) (a : Vec3) : (r • a).x = r * a.x := rfl

@[simp] lemma smul_y (r : ℝ) (a : Vec3) : (r • a).y = r * a.y := rfl

@[simp] lemma smul_z (r : ℝ) (a : Vec3) : (r • a).z = r * a.z := rfl

@[simp] lemma div_x (a : Vec3) (r : ℝ) : (a / r).x = a.x / r := rfl

@[simp] lemma div_y (a : Vec3) (r : ℝ) : (a / r).y = a.y / r := rfl

@[simp] lemma div_z (a : Vec3) (r : ℝ) : (a / r).z = a.z / r := rfl

@[ext] lemma ext' (a b : Vec3) (hx : a.x = b.x) (hy : a.y = b.y) (hz : a.z = b.z) :
    a = b := by
  cases a; cases b; simp_all

lemma magnitude2_nonneg (a : Vec3) : 0 ≤ a.magnitude2 := by
  unfold magnitude2 dot; nlinarith [sq_nonneg a.x, sq_nonneg a.y, sq_nonneg a.z]

end Vec3

/-- `Colour<T>` (`colour.rs`): an RGB triple. -/
structure Colour (T : Type) where
  r : T
  g : T
  b : T

namespace Colour

/-- `Colour::new` (`colour.rs`). -/
def new {T : Type} (r g b : T) : Colour T := ⟨r, g, b⟩

/-- `Colour::mul_element_wise` (`colour.rs`). -/
noncomputable def mul_element_wise {T : Type} [Mul T] (a b : Colour T) : Colour T :=
  ⟨a.r * b.r, a.g * b.g, a.b * b.b⟩

end Colour

/-- Modelled from the spec: the module `ray` (`ray.rs`) is declared in
`main.rs` but its file is not under `src/`; the spec defines Ray as
`{origin: Vector3, direction: Vector3}`. -/
structure Ray where
  origin : Vec3
  direction : Vec3

namespace Ray

/-- Modelled from the spec: `at(t) = origin + t * direction` for the missing
`ray.rs`; Lean reserves the word `at`, hence the primed name. -/
noncomputable def at' (self : Ray) (t : ℝ) : Vec3 := self.origin + t • self.direction

/-- Modelled from the spec: the `Ray::new` constructor used by the scatter
code of `shapes.rs`; a Ray is just its origin and direction. -/
def new (origin direction : Vec3) : Ray := ⟨origin, direction⟩

end Ray

/-- `Material` (`shapes.rs`): the closed set of scattering behaviours.
The source spells the diffuse variant `Lambetarian`. -/
inductive Material where
  | Lambetarian (albedo : Colour ℝ)
  | Metal (albedo : Colour ℝ) (fuzz : ℝ)
  | Dielectric (index_of_refraction : ℝ)

/-- `ScatteredRay` (`shapes.rs`). -/
structure ScatteredRay where
  ray : Ray
  attenuation : Colour ℝ

/-- One bundle of random draws consumed by a single `Material::scatter`
call: the values the rejection samplers `random_on_unit_sphere`,
`random_in_unit_sphere` (`vec.rs`) and the uniform `thread_rng().gen()`
would return. -/
structure RandDraw where
  onUnitSphere : Vec3
  inUnitBall : Vec3
  uniform : ℝ

/-- `f64::EPSILON`. -/
noncomputable def f64_epsilon : ℝ := (2 ^ 52 : ℝ)⁻¹

/-- `almost_zero` (`shapes.rs`). -/
def almost_zero (vec : Vec3) : Prop :=
  |vec.x| < f64_epsilon ∧ |vec.y| < f64_epsilon ∧ |vec.z| < f64_epsilon

/-- `reflect` (`shapes.rs`): `incident - 2*dot(incident, normal)*normal`. -/
noncomputable def reflect (incident normal : Vec3) : Vec3 :=
  incident - (2 * incident.dot normal) • normal

/-- `reflectance` (`shapes.rs`): Schlick approximation. -/
noncomputable def reflectance (cosine ref_idx : ℝ) : ℝ :=
  let r0 := ((1 - ref_idx) / (1 + ref_idx)) ^ 2
  r0 + (1 - r0) * (1 - cosine) ^ 5

/-- `refract` (`shapes.rs`): Snell perpendicular/parallel decomposition.
Rust method precedence makes `-incident.dot(normal).min(1.0)` parse as
`-(min (dot incident normal) 1)`. -/
noncomputable def refract (incident normal : Vec3) (etia_over_etat : ℝ) : Vec3 :=
  let cos_theta := -(min (incident.dot normal) 1)
  let r_out_perp := etia_over_etat • (incident + cos_theta • normal)
  let r_out_parallel := (-(Real.sqrt |1 - r_out_perp.magnitude2|)) • normal
  r_out_parallel + r_out_perp

/-- `HitRecord` (`shapes.rs`); `front_face` is embedded as the proposition
the code's comparison decides. -/
structure HitRecord where
  p : Vec3
  normal : Vec3
  t : ℝ
  front_face : Prop
  material : Material

namespace HitRecord

/-- `HitRecord::new` (`shapes.rs`): orient the stored normal against the
incoming ray. -/
noncomputable def new (t : ℝ) (p : Vec3) (outward_normal : Vec3) (ray : Ray)
    (material : Material) : HitRecord :=
  let front_face := ray.direction.dot outward_normal < 0
  { p := p
    normal := if front_face then outward_normal else -outward_normal
    t := t
    front_face := front_face
    material := material }

end HitRecord

namespace Material

section

attribute [local instance] Classical.propDecidable

/-- `Material::scatter` (`shapes.rs`), with the samplers' results passed in
as `rnd`. -/
noncomputable def scatter (self : Material) (ray : Ray) (hit_record : HitRecord)
    (rnd : RandDraw) : Option ScatteredRay :=
  match self with
  | .Lambetarian albedo =>
      let sd := hit_record.normal + rnd.onUnitSphere
      let scatter_direction := if almost_zero sd then hit_record.normal else sd
      some ⟨Ray.new hit_record.p scatter_direction, albedo⟩
  | .Metal albedo fuzz =>
      let reflected := reflect ray.direction.normalize hit_record.normal
      some ⟨Ray.new hit_record.p (reflected + fuzz • rnd.inUnitBall), albedo⟩
  | .Dielectric index_of_refraction =>
      let refr_rat := if hit_record.front_face then 1 / index_of_refraction
        else index_of_refraction
      let unit_direction := ray.direction.normalize
      let cos_theta := -(min (unit_direction.dot hit_record.normal) 1)
      let sin_theta := Real.sqrt (1 - cos_theta * cos_theta)
      let cannot_refract := refr_rat * sin_theta > 1
      let direction :=
        if cannot_refract ∨ reflectance cos_theta refr_rat > rnd.uniform then
          reflect unit_direction hit_record.normal
        else
          refract unit_direction hit_record.normal refr_rat
      some ⟨Ray.new hit_record.p direction, Colour.new 1 1 1⟩

end

end Material

/-- `Sphere` (`shapes.rs`). -/
structure Sphere where
  center : Vec3
  radius : ℝ
  material : Material

namespace Sphere

/-- `Sphere::hit` (`shapes.rs`): quadratic intersection; the rejection test
is the code's `root < t_min || root > t_max`, with `t_max : WithTop ℝ`
standing for a possibly infinite upper bound. -/
noncomputable def hit (self : Sphere) (ray : Ray) (t_min : ℝ) (t_max : WithTop ℝ) :
    Option HitRecord :=
  let oc := ray.origin - self.center
  let a := ray.direction.magnitude2
  let half_b := oc.dot ray.direction
  let c := oc.magnitude2 - self.radius * self.radius
  let discriminant := half_b * half_b - a * c
  if discriminant < 0 then none
  else
    let square_root_d := Real.sqrt discriminant
    let root1 := (-half_b - square_root_d) / a
    if root1 < t_min ∨ t_max < (root1 : WithTop ℝ) then
      let root2 := (-half_b + square_root_d) / a
      if root2 < t_min ∨ t_max < (root2 : WithTop ℝ) then none
      else
        let p := ray.at' root2
        some (HitRecord.new root2 p ((p - self.center) / self.radius) ray self.material)
    else
      let p := ray.at' root1
      some (HitRecord.new root1 p ((p - self.center) / self.radius) ray self.material)

end Sphere

/-- `World` (`shapes.rs`): a flat list of spheres. -/
structure World where
  shapes : List Sphere

/-- One iteration of the `World::hit` loop body (`shapes.rs`): try the shape
against the current `closest_so_far`, replacing the record on success. -/
noncomputable def hitStep (ray : Ray) (t_min : ℝ) (acc : WithTop ℝ × Option HitRecord)
    (shape : Sphere) : WithTop ℝ × Option HitRecord :=
  match shape.hit ray t_min acc.1 with
  | some h => ((h.t : WithTop ℝ), some h)
  | none => acc

namespace World

/-- `World::hit` (`shapes.rs`): linear scan shrinking `closest_so_far`. -/
noncomputable def hit (self : World) (ray : Ray) (t_min : ℝ) (t_max : WithTop ℝ) :
    Option HitRecord :=
  (self.shapes.foldl (hitStep ray t_min) (t_max, none)).2

end World

/-- `ray_colour` (`main.rs`): the recursive integrator; the random draw for
the scatter at each bounce is `rnds` at the current recursion index. -/
noncomputable def ray_colour (ray : Ray) (world : World) (depth : ℕ)
    (rnds : ℕ → RandDraw) : Colour ℝ :=
  match depth with
  | 0 => Colour.new 0 0 0
  | d + 1 =>
    match world.hit ray 0.001 ⊤ with
    | some hit_record =>
      match hit_record.material.scatter ray hit_record (rnds 0) with
      | some scattered_ray =>
          scattered_ray.attenuation.mul_element_wise
            (ray_colour scattered_ray.ray world d (fun n => rnds (n + 1)))
      | none => Colour.new 1 1 1
    | none =>
      let unit_direction := ray.direction.normalize
      let t := 0.5 * (unit_direction.y + 1)
      Colour.new ((1 - t) + t * 0.5) ((1 - t) + t * 0.7) ((1 - t) + t * 1.0)

/-- `f64::clamp`. -/
noncomputable def f64_clamp (x lo hi : ℝ) : ℝ := min (max x lo) hi

/-- `From<Colour<f64>> for Colour<u32>` (`colour.rs`): `as u32` truncation of
the non-negative clamped value is `Nat.floor`. -/
noncomputable def colour_to_u32 (item : Colour ℝ) : Colour ℕ :=
  ⟨⌊256 * f64_clamp item.r 0 0.999⌋₊,
   ⌊256 * f64_clamp item.g 0 0.999⌋₊,
   ⌊256 * f64_clamp item.b 0 0.999⌋₊⟩

/-- Attenuation each variant produces: its albedo for `Lambetarian` and
`Metal`, white for `Dielectric`. -/
def Material.expected_attenuation : Material → Colour ℝ
  | .Lambetarian albedo => albedo
  | .Metal albedo _ => albedo
  | .Dielectric _ => Colour.new 1 1 1

lemma clamp_chan_nonneg (x : ℝ) : 0 ≤ 256 * f64_clamp x 0 0.999 := by
  have h : (0 : ℝ) ≤ min (max x 0) 0.999 :=
    le_min (le_max_right x 0) (by norm_num)
  unfold f64_clamp
  nlinarith

lemma clamp_chan_le (x : ℝ) : ⌊256 * f64_clamp x 0 0.999⌋₊ ≤ 255 := by
  have h : 256 * f64_clamp x 0 0.999 < 256 := by
    have := min_le_right (max x 0) (0.999 : ℝ)
    unfold f64_clamp
    nlinarith
  have h2 : ⌊256 * f64_clamp x 0 0.999⌋₊ < 256 := by
    rw [Nat.floor_lt (clamp_chan_nonneg x)]
    exact_mod_cast h
  omega

lemma clamp_chan_of_one_le (x : ℝ) (h : 1 ≤ x) :
    ⌊256 * f64_clamp x 0 0.999⌋₊ = 255 := by
  have hmax : max x 0 = x := max_eq_left (by linarith)
  have hmin : min x 0.999 = (0.999 : ℝ) := min_eq_right (by linarith)
  unfold f64_clamp
  rw [hmax, hmin]
  rw [Nat.floor_eq_iff (by norm_num)]
  norm_num

lemma clamp_chan_of_neg (x : ℝ) (h : x < 0) :
    ⌊256 * f64_clamp x 0 0.999⌋₊ = 0 := by
  have hmax : max x 0 = (0 : ℝ) := max_eq_right h.le
  unfold f64_clamp
  rw [hmax]
  norm_num

/-- C8: the linear-to-discrete Colour conversion maps every channel `x` to
`floor (256 * clamp x 0 0.999)`; `0` maps to `0`, `0.999999` maps to `255`,
every input at least `1` maps to `255`, every negative input maps to `0`,
and every discrete component is at most `255`. -/
theorem C8_colour_discretisation :
    (∀ item : Colour ℝ,
        colour_to_u32 item =
          Colour.new ⌊256 * min (max item.r 0) 0.999⌋₊
            ⌊256 * min (max item.g 0) 0.999⌋₊ ⌊256 * min (max item.b 0) 0.999⌋₊)
    ∧ colour_to_u32 (Colour.new 0 0 0) = Colour.new 0 0 0
    ∧ colour_to_u32 (Colour.new 0.999999 0.999999 0.999999) = Colour.new 255 255 255
    ∧ (∀ x : ℝ, 1 ≤ x → colour_to_u32 (Colour.new x x x) = Colour.new 255 255 255)
    ∧ (∀ x : ℝ, x < 0 → colour_to_u32 (Colour.new x x x) = Colour.new 0 0 0)
    ∧ (∀ item : Colour ℝ,
        (colour_to_u32 item).r ≤ 255 ∧ (colour_to_u32 item).g ≤ 255 ∧
          (colour_to_u32 item).b ≤ 255) := by
  refine ⟨fun item => rfl, ?_, ?_, fun x hx => ?_, fun x hx => ?_, fun item => ?_⟩
  · unfold colour_to_u32 f64_clamp Colour.new
    norm_num
  · unfold colour_to_u32 f64_clamp Colour.new
    have hmax : max (0.999999 : ℝ) 0 = 0.999999 := max_eq_left (by norm_num)
    have hmin : min (0.999999 : ℝ) 0.999 = 0.999 := min_eq_right (by norm_num)
    rw [hmax, hmin]
    congr 1 <;> rw [Nat.floor_eq_iff (by norm_num)] <;> norm_num
  · unfold colour_to_u32 Colour.new
    rw [clamp_chan_of_one_le x hx]
  · unfold colour_to_u32 Colour.new
    rw [clamp_chan_of_neg x hx]
  · exact ⟨clamp_chan_le _, clamp_chan_le _, clamp_chan_le _⟩

/-- C8 witness: the clauses with hypotheses evaluated at `x = 1.5` and
`x = -0.25`. -/
theorem C8_colour_discretisation_witness :
    ((1 : ℝ) ≤ 1.5 ∧ colour_to_u32 (Colour.new 1.5 1.5 1.5) = Colour.new 255 255 255)
    ∧ ((-0.25 : ℝ) < 0 ∧ colour_to_u32 (Colour.new (-0.25) (-0.25) (-0.25)) = Colour.new 0 0 0) :=
  ⟨⟨by norm_num, C8_colour_discretisation.2.2.2.1 1.5 (by norm_num)⟩,
   ⟨by norm_num, C8_colour_discretisation.2.2.2.2.1 (-0.25) (by norm_num)⟩⟩

/-- C9: for unit vectors `d` and `n`, reflection about `n` is an involution:
`reflect (reflect d n) n = d`. -/
theorem C9_reflect_involution (d n : Vec3) (hd : d.magnitude2 = 1)
    (hn : n.magnitude2 = 1) : reflect (reflect d n) n = d := by
  have hn' : n.x * n.x + n.y * n.y + n.z * n.z = 1 := hn
  unfold reflect Vec3.dot
  ext
  · simp
    linear_combination (4 * (d.x * n.x + d.y * n.y + d.z * n.z) * n.x) * hn'
  · simp
    linear_combination (4 * (d.x * n.x + d.y * n.y + d.z * n.z) * n.y) * hn'
  · simp
    linear_combination (4 * (d.x * n.x + d.y * n.y + d.z * n.z) * n.z) * hn'

/-- C9 witness: the involution evaluated at `d = (1,0,0)`, `n = (0,1,0)`. -/
theorem C9_reflect_involution_witness :
    (Vec3.mk 1 0 0).magnitude2 = 1 ∧ (Vec3.mk 0 1 0).magnitude2 = 1 ∧
      reflect (reflect (Vec3.mk 1 0 0) (Vec3.mk 0 1 0)) (Vec3.mk 0 1 0) = Vec3.mk 1 0 0 := by
  have h1 : (Vec3.mk (1:ℝ) 0 0).magnitude2 = 1 := by
    unfold Vec3.magnitude2 Vec3.dot; norm_num
  have h2 : (Vec3.mk (0:ℝ) 1 0).magnitude2 = 1 := by
    unfold Vec3.magnitude2 Vec3.dot; norm_num
  exact ⟨h1, h2, C9_reflect_involution _ _ h1 h2⟩

/-- C3: the integrator returns black at depth `0` for every ray, scene and
random stream, and at depth `d + 1` it unfolds to one bounce whose recursive
call is at depth `d`; as a structurally recursive function of `depth` it is
total and its recursion depth is bounded by `depth`. -/
theorem C3_depth_termination :
    (∀ (ray : Ray) (world : World) (rnds : ℕ → RandDraw),
        ray_colour ray world 0 rnds = Colour.new 0 0 0)
    ∧ (∀ (ray : Ray) (world : World) (d : ℕ) (rnds : ℕ → RandDraw),
        ray_colour ray world (d + 1) rnds =
          match world.hit ray 0.001 ⊤ with
          | some hit_record =>
            match hit_record.material.scatter ray hit_record (rnds 0) with
            | some scattered_ray =>
                scattered_ray.attenuation.mul_element_wise
                  (ray_colour scattered_ray.ray world d (fun n => rnds (n + 1)))
            | none => Colour.new 1 1 1
          | none =>
            Colour.new ((1 - 0.5 * (ray.direction.normalize.y + 1))
                + 0.5 * (ray.direction.normalize.y + 1) * 0.5)
              ((1 - 0.5 * (ray.direction.normalize.y + 1))
                + 0.5 * (ray.direction.normalize.y + 1) * 0.7)
              ((1 - 0.5 * (ray.direction.normalize.y + 1))
                + 0.5 * (ray.direction.normalize.y + 1) * 1.0)) :=
  ⟨fun _ _ _ => rfl, fun _ _ _ _ => rfl⟩

/-- C5: every material variant always scatters (never `None`), with
attenuation the albedo for `Lambetarian` and `Metal` and white for
`Dielectric`; hence the integrator's no-scatter branch is unreachable. -/
theorem C5_scatter_total (m : Material) (ray : Ray) (hr : HitRecord)
    (rnd : RandDraw) :
    ∃ sr, m.scatter ray hr rnd = some sr ∧
      sr.attenuation = m.expected_attenuation := by
  cases m <;> exact ⟨_, rfl, rfl⟩

lemma HitRecord.new_t (t : ℝ) (p o : Vec3) (ray : Ray) (m : Material) :
    (HitRecord.new t p o ray m).t = t := rfl

lemma HitRecord.new_p (t : ℝ) (p o : Vec3) (ray : Ray) (m : Material) :
    (HitRecord.new t p o ray m).p = p := rfl

lemma HitRecord.new_material (t : ℝ) (p o : Vec3) (ray : Ray) (m : Material) :
    (HitRecord.new t p o ray m).material = m := rfl

lemma div_sub_le_div_add (hb sq a : ℝ) (ha : 0 ≤ a) (hsq : 0 ≤ sq) :
    (-hb - sq) / a ≤ (-hb + sq) / a := by
  rcases eq_or_lt_of_le ha with h | h
  · rw [← h]
    simp
  · exact (div_le_div_right h).mpr (by linarith)

lemma sphere_hit_bounds {s : Sphere} {ray : Ray} {t_min : ℝ} {t_max : WithTop ℝ}
    {rec : HitRecord} (h : s.hit ray t_min t_max = some rec) :
    t_min ≤ rec.t ∧ (rec.t : WithTop ℝ) ≤ t_max := by
  simp only [Sphere.hit] at h
  split_ifs at h with h1 h2 h3
  · rw [Option.some.injEq] at h
    subst h
    rw [HitRecord.new_t]
    push_neg at h3
    exact h3
  · rw [Option.some.injEq] at h
    subst h
    rw [HitRecord.new_t]
    push_neg at h2
    exact h2

lemma sphere_hit_shrink {s : Sphere} {ray : Ray} {t_min : ℝ} {t_max t_max' : WithTop ℝ}
    {rec : HitRecord} (hle : t_max' ≤ t_max) (h : s.hit ray t_min t_max = some rec)
    (hrec : (rec.t : WithTop ℝ) ≤ t_max') : s.hit ray t_min t_max' = some rec := by
  simp only [Sphere.hit] at h ⊢
  split_ifs at h with h1 h2 h3
  · rw [Option.some.injEq] at h
    subst h
    rw [HitRecord.new_t] at hrec
    push_neg at h3
    rw [if_neg h1, if_pos (h2.imp id (fun hb => lt_of_le_of_lt hle hb)),
      if_neg (by push_neg; exact ⟨h3.1, hrec⟩)]
  · rw [Option.some.injEq] at h
    subst h
    rw [HitRecord.new_t] at hrec
    push_neg at h2
    rw [if_neg h1, if_neg (by push_neg; exact ⟨h2.1, hrec⟩)]

lemma sphere_hit_grow {s : Sphere} {ray : Ray} {t_min : ℝ} {t_max t_max' : WithTop ℝ}
    {rec : HitRecord} (hle : t_max ≤ t_max') (h : s.hit ray t_min t_max = some rec) :
    s.hit ray t_min t_max' = some rec := by
  have hord : (-(((ray.origin - s.center).dot ray.direction)) -
        Real.sqrt (((ray.origin - s.center).dot ray.direction) *
            ((ray.origin - s.center).dot ray.direction) -
          ray.direction.magnitude2 *
            ((ray.origin - s.center).magnitude2 - s.radius * s.radius))) /
          ray.direction.magnitude2 ≤
      (-(((ray.origin - s.center).dot ray.direction)) +
        Real.sqrt (((ray.origin - s.center).dot ray.direction) *
            ((ray.origin - s.center).dot ray.direction) -
          ray.direction.magnitude2 *
            ((ray.origin - s.center).magnitude2 - s.radius * s.radius))) /
          ray.direction.magnitude2 :=
    div_sub_le_div_add _ _ _ (Vec3.magnitude2_nonneg _) (Real.sqrt_nonneg _)
  simp only [Sphere.hit] at h ⊢
  split_ifs at h with h1 h2 h3
  · rw [Option.some.injEq] at h
    subst h
    push_neg at h3
    rcases h2 with h2a | h2b
    · rw [if_neg h1, if_pos (Or.inl h2a),
        if_neg (by push_neg; exact ⟨h3.1, le_trans h3.2 hle⟩)]
    · exact absurd (lt_of_le_of_lt (le_trans (WithTop.coe_le_coe.mpr hord) h3.2) h2b)
        (lt_irrefl _)
  · rw [Option.some.injEq] at h
    subst h
    push_neg at h2
    rw [if_neg h1, if_neg (by push_neg; exact ⟨h2.1, le_trans h2.2 hle⟩)]

lemma hitStep_of_none {ray : Ray} {t_min : ℝ} {acc : WithTop ℝ × Option HitRecord}
    {shape : Sphere} (h : shape.hit ray t_min acc.1 = none) :
    hitStep ray t_min acc shape = acc := by
  simp [hitStep, h]

lemma hitStep_of_some {ray : Ray} {t_min : ℝ} {acc : WithTop ℝ × Option HitRecord}
    {shape : Sphere} {hrec : HitRecord} (h : shape.hit ray t_min acc.1 = some hrec) :
    hitStep ray t_min acc shape = ((hrec.t : WithTop ℝ), some hrec) := by
  simp [hitStep, h]

/-- Invariant of the `World::hit` scan: the accumulator's first component is
the current `closest_so_far`, the record (when present) is a hit of some
sphere of the scanned prefix over the full original interval, and its `t`
is a lower bound on every such hit. -/
lemma world_fold_spec (ray : Ray) (t_min : ℝ) (t_max : WithTop ℝ) (l : List Sphere) :
    ((l.foldl (hitStep ray t_min) (t_max, none)).2 = none →
        (l.foldl (hitStep ray t_min) (t_max, none)).1 = t_max ∧
          ∀ s ∈ l, s.hit ray t_min t_max = none)
    ∧ ∀ rec, (l.foldl (hitStep ray t_min) (t_max, none)).2 = some rec →
        (l.foldl (hitStep ray t_min) (t_max, none)).1 = (rec.t : WithTop ℝ) ∧
          (rec.t : WithTop ℝ) ≤ t_max ∧
          (∃ s ∈ l, s.hit ray t_min t_max = some rec) ∧
          ∀ s ∈ l, ∀ rec', s.hit ray t_min t_max = some rec' → rec.t ≤ rec'.t := by
  induction l using List.reverseRecOn with
  | nil => simp
  | append_singleton l s0 ih =>
    rw [List.foldl_concat]
    rcases hr2 : (l.foldl (hitStep ray t_min) (t_max, none)).2 with _ | rec0
    · obtain ⟨hc, hall⟩ := ih.1 hr2
      rcases hs0 : s0.hit ray t_min (l.foldl (hitStep ray t_min) (t_max, none)).1
        with _ | h0
      · rw [hitStep_of_none hs0]
        constructor
        · intro _
          refine ⟨hc, fun s hs => ?_⟩
          rcases List.mem_append.mp hs with hsl | hss
          · exact hall s hsl
          · rw [List.mem_singleton.mp hss, ← hc]
            exact hs0
        · intro rec hrec
          rw [hr2] at hrec
          exact absurd hrec (by simp)
      · rw [hitStep_of_some hs0]
        rw [hc] at hs0
        constructor
        · intro hnone
          exact absurd hnone (by simp)
        · intro rec hrec
          rw [Option.some.injEq] at hrec
          subst hrec
          refine ⟨rfl, (sphere_hit_bounds hs0).2,
            ⟨s0, List.mem_append.mpr (Or.inr (List.mem_singleton.mpr rfl)), hs0⟩,
            fun s hs rec' hs' => ?_⟩
          rcases List.mem_append.mp hs with hsl | hss
          · exact absurd hs' (by rw [hall s hsl]; simp)
          · rw [List.mem_singleton.mp hss] at hs'
            rw [hs0] at hs'
            rw [Option.some.injEq] at hs'
            rw [hs']
    · obtain ⟨hc, hb, hex, hmin⟩ := ih.2 rec0 hr2
      rcases hs0 : s0.hit ray t_min (l.foldl (hitStep ray t_min) (t_max, none)).1
        with _ | h0
      · rw [hitStep_of_none hs0]
        rw [hc] at hs0
        constructor
        · intro hnone
          rw [hr2] at hnone
          exact absurd hnone (by simp)
        · intro rec hrec
          rw [hr2, Option.some.injEq] at hrec
          subst hrec
          refine ⟨hc, hb, ?_, fun s hs rec' hs' => ?_⟩
          · obtain ⟨s1, hs1, hhit1⟩ := hex
            exact ⟨s1, List.mem_append.mpr (Or.inl hs1), hhit1⟩
          · rcases List.mem_append.mp hs with hsl | hss
            · exact hmin s hsl rec' hs'
            · rw [List.mem_singleton.mp hss] at hs'
              by_contra hlt
              push_neg at hlt
              exact absurd (sphere_hit_shrink hb hs' (WithTop.coe_le_coe.mpr hlt.le))
                (by rw [hs0]; simp)
      · rw [hitStep_of_some hs0]
        rw [hc] at hs0
        have hbounds := sphere_hit_bounds hs0
        have hgrow := sphere_hit_grow hb hs0
        constructor
        · intro hnone
          exact absurd hnone (by simp)
        · intro rec hrec
          rw [Option.some.injEq] at hrec
          subst hrec
          refine ⟨rfl, le_trans hbounds.2 hb,
            ⟨s0, List.mem_append.mpr (Or.inr (List.mem_singleton.mpr rfl)), hgrow⟩,
            fun s hs rec' hs' => ?_⟩
          rcases List.mem_append.mp hs with hsl | hss
          · exact le_trans (WithTop.coe_le_coe.mp hbounds.2) (hmin s hsl rec' hs')
          · rw [List.mem_singleton.mp hss] at hs'
            rw [hgrow, Option.some.injEq] at hs'
            rw [hs']

lemma world_hit_none_iff (ray : Ray) (t_min : ℝ) (t_max : WithTop ℝ) (w : World) :
    w.hit ray t_min t_max = none ↔ ∀ s ∈ w.shapes, s.hit ray t_min t_max = none := by
  have spec := world_fold_spec ray t_min t_max w.shapes
  constructor
  · intro h
    exact (spec.1 h).2
  · intro hall
    rcases hfold : w.hit ray t_min t_max with _ | rec
    · rfl
    · obtain ⟨-, -, ⟨s, hs, hhit⟩, -⟩ := spec.2 rec hfold
      rw [hall s hs] at hhit
      exact absurd hhit (by simp)

lemma world_hit_some_spec {ray : Ray} {t_min : ℝ} {t_max : WithTop ℝ} {w : World}
    {rec : HitRecord} (h : w.hit ray t_min t_max = some rec) :
    (∃ s ∈ w.shapes, s.hit ray t_min t_max = some rec) ∧
      ∀ s ∈ w.shapes, ∀ rec', s.hit ray t_min t_max = some rec' → rec.t ≤ rec'.t := by
  have spec := world_fold_spec ray t_min t_max w.shapes
  obtain ⟨-, -, hex, hmin⟩ := spec.2 rec h
  exact ⟨hex, hmin⟩

lemma world_hit_t_bounds {ray : Ray} {t_min : ℝ} {t_max : WithTop ℝ} {w : World}
    {rec : HitRecord} (h : w.hit ray t_min t_max = some rec) :
    t_min ≤ rec.t ∧ (rec.t : WithTop ℝ) ≤ t_max := by
  obtain ⟨⟨s, _, hhit⟩, -⟩ := world_hit_some_spec h
  exact sphere_hit_bounds hhit

/-- C1 (amended): `World.hit` is a linear scan shrinking `t_max` to each
accepted hit's `t`; it returns `None` exactly when every sphere misses the
full interval, and otherwise a record that is a genuine full-interval hit of
one of the spheres whose `t` is minimal among all full-interval hits — so
the returned `t` is independent of the insertion order of the spheres.
(A later sphere's equal-`t` hit may replace the record, so the full record
itself is not order-independent; see the counterexample.) -/
theorem world_hit_nearest (ray : Ray) (t_min : ℝ) (t_max : WithTop ℝ) (w : World) :
    (w.hit ray t_min t_max = none ↔ ∀ s ∈ w.shapes, s.hit ray t_min t_max = none)
    ∧ (∀ rec, w.hit ray t_min t_max = some rec →
        (∃ s ∈ w.shapes, s.hit ray t_min t_max = some rec) ∧
          ∀ s ∈ w.shapes, ∀ rec', s.hit ray t_min t_max = some rec' → rec.t ≤ rec'.t)
    ∧ ∀ w' : World, List.Perm w.shapes w'.shapes →
        Option.map HitRecord.t (w.hit ray t_min t_max) =
          Option.map HitRecord.t (w'.hit ray t_min t_max) := by
  refine ⟨world_hit_none_iff ray t_min t_max w,
    fun rec h => world_hit_some_spec h, fun w' hperm => ?_⟩
  rcases h1 : w.hit ray t_min t_max with _ | rec
  · rcases h2 : w'.hit ray t_min t_max with _ | rec'
    · rfl
    · obtain ⟨⟨s, hs, hhit⟩, -⟩ := world_hit_some_spec h2
      have : s.hit ray t_min t_max = none :=
        ((world_hit_none_iff ray t_min t_max w).mp h1) s (hperm.mem_iff.mpr hs)
      rw [this] at hhit
      exact absurd hhit (by simp)
  · rcases h2 : w'.hit ray t_min t_max with _ | rec'
    · obtain ⟨⟨s, hs, hhit⟩, -⟩ := world_hit_some_spec h1
      have : s.hit ray t_min t_max = none :=
        ((world_hit_none_iff ray t_min t_max w').mp h2) s (hperm.mem_iff.mp hs)
      rw [this] at hhit
      exact absurd hhit (by simp)
    · obtain ⟨⟨s, hs, hhit⟩, hmin⟩ := world_hit_some_spec h1
      obtain ⟨⟨s', hs', hhit'⟩, hmin'⟩ := world_hit_some_spec h2
      have hle : rec.t ≤ rec'.t := hmin s' (hperm.mem_iff.mpr hs') rec' hhit'
      have hge : rec'.t ≤ rec.t := hmin' s (hperm.mem_iff.mp hs) rec hhit
      simp [le_antisymm hle hge]

/-- C10: the integrator at positive depth queries the scene only through
`World.hit ray 0.001 ⊤`, so every intersection it acts on has `t ≥ 0.001`;
geometry whose only hits lie below `0.001` falls through to a farther hit
or the background. -/
theorem ray_colour_t_min_bias (ray : Ray) (w : World) (d : ℕ) (rnds : ℕ → RandDraw) :
    (∀ rec, w.hit ray 0.001 ⊤ = some rec → (0.001 : ℝ) ≤ rec.t)
    ∧ ray_colour ray w (d + 1) rnds =
        match w.hit ray 0.001 ⊤ with
        | some hit_record =>
          match hit_record.material.scatter ray hit_record (rnds 0) with
          | some scattered_ray =>
              scattered_ray.attenuation.mul_element_wise
                (ray_colour scattered_ray.ray w d (fun n => rnds (n + 1)))
          | none => Colour.new 1 1 1
        | none =>
          Colour.new ((1 - 0.5 * (ray.direction.normalize.y + 1))
              + 0.5 * (ray.direction.normalize.y + 1) * 0.5)
            ((1 - 0.5 * (ray.direction.normalize.y + 1))
              + 0.5 * (ray.direction.normalize.y + 1) * 0.7)
            ((1 - 0.5 * (ray.direction.normalize.y + 1))
              + 0.5 * (ray.direction.normalize.y + 1) * 1.0) :=
  ⟨fun _ h => (world_hit_t_bounds h).1, rfl⟩

/-- The quadratic coefficient `a = |D|^2` of `Sphere::hit`. -/
noncomputable def sphereQuadA (s : Sphere) (ray : Ray) : ℝ := ray.direction.magnitude2

/-- The half coefficient `half_b = dot(O - C, D)` of `Sphere::hit`. -/
noncomputable def sphereHalfB (s : Sphere) (ray : Ray) : ℝ :=
  (ray.origin - s.center).dot ray.direction

/-- The constant `c = |O - C|^2 - r^2` of `Sphere::hit`. -/
noncomputable def sphereQuadC (s : Sphere) (ray : Ray) : ℝ :=
  (ray.origin - s.center).magnitude2 - s.radius * s.radius

/-- The discriminant `half_b^2 - a*c` of `Sphere::hit`. -/
noncomputable def sphereDisc (s : Sphere) (ray : Ray) : ℝ :=
  sphereHalfB s ray * sphereHalfB s ray - sphereQuadA s ray * sphereQuadC s ray

/-- The smaller root `(-half_b - sqrt disc) / a` of `Sphere::hit`. -/
noncomputable def sphereRoot1 (s : Sphere) (ray : Ray) : ℝ :=
  (-sphereHalfB s ray - Real.sqrt (sphereDisc s ray)) / sphereQuadA s ray

/-- The larger root `(-half_b + sqrt disc) / a` of `Sphere::hit`. -/
noncomputable def sphereRoot2 (s : Sphere) (ray : Ray) : ℝ :=
  (-sphereHalfB s ray + Real.sqrt (sphereDisc s ray)) / sphereQuadA s ray

/-- C2: for a sphere of positive radius and a ray of nonzero direction,
`Sphere.hit` solves `a t^2 + 2 half_b t + c = 0`; a negative discriminant
yields `None`; otherwise the smaller root is accepted when it lies in the
interval (the code's test `root < t_min || root > t_max` accepts the
endpoints), else the larger root when it lies in the interval, else `None`. -/
theorem sphere_hit_root_selection (s : Sphere) (ray : Ray) (t_min : ℝ)
    (t_max : WithTop ℝ) (hrad : 0 < s.radius)
    (hdir : ray.direction ≠ Vec3.mk 0 0 0) :
    (sphereDisc s ray < 0 → s.hit ray t_min t_max = none)
    ∧ (0 ≤ sphereDisc s ray → t_min ≤ sphereRoot1 s ray →
        (sphereRoot1 s ray : WithTop ℝ) ≤ t_max →
        ∃ rec, s.hit ray t_min t_max = some rec ∧ rec.t = sphereRoot1 s ray)
    ∧ (0 ≤ sphereDisc s ray →
        ¬(t_min ≤ sphereRoot1 s ray ∧ (sphereRoot1 s ray : WithTop ℝ) ≤ t_max) →
        t_min ≤ sphereRoot2 s ray → (sphereRoot2 s ray : WithTop ℝ) ≤ t_max →
        ∃ rec, s.hit ray t_min t_max = some rec ∧ rec.t = sphereRoot2 s ray)
    ∧ (0 ≤ sphereDisc s ray →
        ¬(t_min ≤ sphereRoot1 s ray ∧ (sphereRoot1 s ray : WithTop ℝ) ≤ t_max) →
        ¬(t_min ≤ sphereRoot2 s ray ∧ (sphereRoot2 s ray : WithTop ℝ) ≤ t_max) →
        s.hit ray t_min t_max = none) := by
  refine ⟨fun hdisc => ?_, fun hdisc h1a h1b => ?_, fun hdisc hnot1 h2a h2b => ?_,
    fun hdisc hnot1 hnot2 => ?_⟩
  · simp only [sphereDisc, sphereHalfB, sphereQuadA, sphereQuadC] at hdisc
    simp only [Sphere.hit]
    rw [if_pos hdisc]
  · simp only [sphereRoot1, sphereDisc, sphereHalfB, sphereQuadA, sphereQuadC]
      at hdisc h1a h1b
    simp only [Sphere.hit]
    rw [if_neg (not_lt.mpr hdisc),
      if_neg (not_or.mpr ⟨not_lt.mpr h1a, not_lt.mpr h1b⟩)]
    exact ⟨_, rfl, rfl⟩
  · simp only [sphereRoot1, sphereRoot2, sphereDisc, sphereHalfB, sphereQuadA,
      sphereQuadC] at hdisc hnot1 h2a h2b
    rw [not_and_or] at hnot1
    simp only [Sphere.hit]
    rw [if_neg (not_lt.mpr hdisc),
      if_pos (hnot1.imp not_le.mp not_le.mp),
      if_neg (not_or.mpr ⟨not_lt.mpr h2a, not_lt.mpr h2b⟩)]
    exact ⟨_, rfl, rfl⟩
  · simp only [sphereRoot1, sphereRoot2, sphereDisc, sphereHalfB, sphereQuadA,
      sphereQuadC] at hdisc hnot1 hnot2
    rw [not_and_or] at hnot1 hnot2
    simp only [Sphere.hit]
    rw [if_neg (not_lt.mpr hdisc),
      if_pos (hnot1.imp not_le.mp not_le.mp),
      if_pos (hnot2.imp not_le.mp not_le.mp)]

@[simp] lemma Vec3.mk_add (x1 y1 z1 x2 y2 z2 : ℝ) :
    Vec3.mk x1 y1 z1 + Vec3.mk x2 y2 z2 = Vec3.mk (x1 + x2) (y1 + y2) (z1 + z2) := rfl

@[simp] lemma Vec3.mk_sub (x1 y1 z1 x2 y2 z2 : ℝ) :
    Vec3.mk x1 y1 z1 - Vec3.mk x2 y2 z2 = Vec3.mk (x1 - x2) (y1 - y2) (z1 - z2) := rfl

@[simp] lemma Vec3.mk_neg (x1 y1 z1 : ℝ) :
    -Vec3.mk x1 y1 z1 = Vec3.mk (-x1) (-y1) (-z1) := rfl

@[simp] lemma Vec3.mk_smul (r x1 y1 z1 : ℝ) :
    r • Vec3.mk x1 y1 z1 = Vec3.mk (r * x1) (r * y1) (r * z1) := rfl

@[simp] lemma Vec3.mk_div (x1 y1 z1 r : ℝ) :
    Vec3.mk x1 y1 z1 / r = Vec3.mk (x1 / r) (y1 / r) (z1 / r) := rfl

/-- Diffuse grey material of the worked example. -/
noncomputable def mat_a : Material := .Lambetarian (Colour.new 0.5 0.5 0.5)

/-- Metallic material of the worked example. -/
noncomputable def mat_b : Material := .Metal (Colour.new 0.8 0.8 0.8) 0

/-- Unit sphere centred at `(0,0,2)`: the ray `ray_z` first meets it at
`t = 1`. -/
noncomputable def sphere_a : Sphere := ⟨⟨0, 0, 2⟩, 1, mat_a⟩

/-- Radius-2 sphere centred at `(0,0,3)`: the ray `ray_z` also first meets
it at `t = 1`, tangent to `sphere_a` at the same point. -/
noncomputable def sphere_b : Sphere := ⟨⟨0, 0, 3⟩, 2, mat_b⟩

/-- The ray from the origin along `+z`. -/
noncomputable def ray_z : Ray := ⟨⟨0, 0, 0⟩, ⟨0, 0, 1⟩⟩

/-- The record `sphere_a.hit` produces for `ray_z`. -/
noncomputable def rec_a : HitRecord := ⟨⟨0, 0, 1⟩, ⟨0, 0, -1⟩, 1, True, mat_a⟩

/-- The record `sphere_b.hit` produces for `ray_z`. -/
noncomputable def rec_b : HitRecord := ⟨⟨0, 0, 1⟩, ⟨0, 0, -1⟩, 1, True, mat_b⟩

lemma sqrt_four : Real.sqrt 4 = 2 := by
  rw [show (4 : ℝ) = 2 ^ 2 by norm_num, Real.sqrt_sq (by norm_num)]

lemma sphere_a_hit_top : sphere_a.hit ray_z 0 ⊤ = some rec_a := by
  simp only [Sphere.hit, sphere_a, ray_z, rec_a, HitRecord.new, Ray.at']
  norm_num [Vec3.dot, Vec3.magnitude2, Real.sqrt_one, not_top_lt]

lemma sphere_b_hit_top : sphere_b.hit ray_z 0 ⊤ = some rec_b := by
  simp only [Sphere.hit, sphere_b, ray_z, rec_b, HitRecord.new, Ray.at']
  norm_num [Vec3.dot, Vec3.magnitude2, sqrt_four, not_top_lt]

lemma sphere_a_hit_one : sphere_a.hit ray_z 0 ((1 : ℝ) : WithTop ℝ) = some rec_a := by
  simp only [Sphere.hit, sphere_a, ray_z, rec_a, HitRecord.new, Ray.at']
  norm_num [Vec3.dot, Vec3.magnitude2, Real.sqrt_one, WithTop.coe_lt_coe]

lemma sphere_b_hit_one : sphere_b.hit ray_z 0 ((1 : ℝ) : WithTop ℝ) = some rec_b := by
  simp only [Sphere.hit, sphere_b, ray_z, rec_b, HitRecord.new, Ray.at']
  norm_num [Vec3.dot, Vec3.magnitude2, sqrt_four, WithTop.coe_lt_coe]

lemma world_ab_hit : (World.mk [sphere_a, sphere_b]).hit ray_z 0 ⊤ = some rec_b := by
  simp only [World.hit, List.foldl_cons, List.foldl_nil]
  rw [@hitStep_of_some ray_z 0 (⊤, none) sphere_a rec_a sphere_a_hit_top]
  have h : sphere_b.hit ray_z 0 ((rec_a.t : ℝ) : WithTop ℝ) = some rec_b := by
    rw [show rec_a.t = 1 from rfl]
    exact sphere_b_hit_one
  rw [hitStep_of_some h]

lemma world_ba_hit : (World.mk [sphere_b, sphere_a]).hit ray_z 0 ⊤ = some rec_a := by
  simp only [World.hit, List.foldl_cons, List.foldl_nil]
  rw [@hitStep_of_some ray_z 0 (⊤, none) sphere_b rec_b sphere_b_hit_top]
  have h : sphere_a.hit ray_z 0 ((rec_b.t : ℝ) : WithTop ℝ) = some rec_a := by
    rw [show rec_b.t = 1 from rfl]
    exact sphere_a_hit_one
  rw [hitStep_of_some h]

/-- Whether a material is the `Metal` variant. -/
def Material.is_metal : Material → Bool
  | .Metal _ _ => true
  | _ => false

/-- C1 counterexample: `sphere_a` (diffuse) and `sphere_b` (metal) are both
first hit by `ray_z` at `t = 1`. Scanned as `[a, b]`, the later sphere `b`
replaces the record although its `t` (`= 1`) is not strictly smaller, and
the two insertion orders return different records — refuting both the
"strictly smaller" and the "same record regardless of insertion order"
parts of the claim. -/
theorem world_hit_order_counterexample :
    Option.map HitRecord.t ((World.mk [sphere_a, sphere_b]).hit ray_z 0 ⊤) = some 1
    ∧ Option.map HitRecord.t ((World.mk [sphere_b, sphere_a]).hit ray_z 0 ⊤) = some 1
    ∧ Option.map (fun h => h.material.is_metal)
        ((World.mk [sphere_a, sphere_b]).hit ray_z 0 ⊤) = some true
    ∧ Option.map (fun h => h.material.is_metal)
        ((World.mk [sphere_b, sphere_a]).hit ray_z 0 ⊤) = some false
    ∧ (World.mk [sphere_a, sphere_b]).hit ray_z 0 ⊤ ≠
        (World.mk [sphere_b, sphere_a]).hit ray_z 0 ⊤ := by
  rw [world_ab_hit, world_ba_hit]
  refine ⟨rfl, rfl, rfl, rfl, ?_⟩
  intro h
  rw [Option.some.injEq] at h
  have hmat := congrArg HitRecord.material h
  simp only [rec_a, rec_b, mat_a, mat_b] at hmat
  exact absurd hmat (by simp)

/-- C1 witness: the amended theorem applied to the concrete tangent-sphere
scene and its swapped permutation, plus the minimality clause at the
returned record. -/
theorem world_hit_nearest_witness :
    (Option.map HitRecord.t ((World.mk [sphere_a, sphere_b]).hit ray_z 0 ⊤) =
      Option.map HitRecord.t ((World.mk [sphere_b, sphere_a]).hit ray_z 0 ⊤))
    ∧ rec_b.t ≤ rec_a.t :=
  ⟨(world_hit_nearest ray_z 0 ⊤ (World.mk [sphere_a, sphere_b])).2.2
      (World.mk [sphere_b, sphere_a]) (List.Perm.swap sphere_b sphere_a []),
   ((world_hit_nearest ray_z 0 ⊤ (World.mk [sphere_a, sphere_b])).2.1 rec_b
      world_ab_hit).2 sphere_a (by simp) rec_a sphere_a_hit_top⟩

/-- C2 witness: the root-selection theorem applied to `sphere_a` and `ray_z`
(discriminant `1`, smaller root `t = 1` accepted). -/
theorem sphere_hit_root_selection_witness :
    (0 < sphere_a.radius ∧ ray_z.direction ≠ Vec3.mk 0 0 0 ∧
      0 ≤ sphereDisc sphere_a ray_z ∧ (0 : ℝ) ≤ sphereRoot1 sphere_a ray_z ∧
      ((sphereRoot1 sphere_a ray_z : ℝ) : WithTop ℝ) ≤ ⊤)
    ∧ ∃ rec, sphere_a.hit ray_z 0 ⊤ = some rec ∧ rec.t = sphereRoot1 sphere_a ray_z := by
  have h1 : 0 < sphere_a.radius := by norm_num [sphere_a]
  have h2 : ray_z.direction ≠ Vec3.mk 0 0 0 := by
    intro h
    have hz := congrArg Vec3.z h
    norm_num [ray_z] at hz
  have h3 : 0 ≤ sphereDisc sphere_a ray_z := by
    norm_num [sphereDisc, sphereHalfB, sphereQuadA, sphereQuadC, sphere_a, ray_z,
      Vec3.dot, Vec3.magnitude2]
  have h4 : (0 : ℝ) ≤ sphereRoot1 sphere_a ray_z := by
    norm_num [sphereRoot1, sphereDisc, sphereHalfB, sphereQuadA, sphereQuadC,
      sphere_a, ray_z, Vec3.dot, Vec3.magnitude2, Real.sqrt_one]
  have h5 : ((sphereRoot1 sphere_a ray_z : ℝ) : WithTop ℝ) ≤ ⊤ := le_top
  exact ⟨⟨h1, h2, h3, h4, h5⟩,
    (sphere_hit_root_selection sphere_a ray_z 0 ⊤ h1 h2).2.1 h3 h4 h5⟩

lemma sphere_a_hit_001 : sphere_a.hit ray_z 0.001 ⊤ = some rec_a := by
  simp only [Sphere.hit, sphere_a, ray_z, rec_a, HitRecord.new, Ray.at']
  norm_num [Vec3.dot, Vec3.magnitude2, Real.sqrt_one, not_top_lt]

lemma world_a_hit_001 : (World.mk [sphere_a]).hit ray_z 0.001 ⊤ = some rec_a := by
  simp only [World.hit, List.foldl_cons, List.foldl_nil]
  rw [@hitStep_of_some ray_z 0.001 (⊤, none) sphere_a rec_a sphere_a_hit_001]

/-- C10 witness: the bias theorem applied to the one-sphere scene hit by
`ray_z` at `t = 1`. -/
theorem ray_colour_t_min_bias_witness : (0.001 : ℝ) ≤ rec_a.t :=
  (ray_colour_t_min_bias ray_z (World.mk [sphere_a]) 0
    (fun _ => ⟨⟨0, 0, 0⟩, ⟨0, 0, 0⟩, 0⟩)).1 rec_a world_a_hit_001

lemma Vec3.magnitude2_neg (v : Vec3) : (-v).magnitude2 = v.magnitude2 := by
  unfold magnitude2 dot
  simp only [neg_x, neg_y, neg_z]
  ring

lemma Vec3.dot_neg_right (a b : Vec3) : a.dot (-b) = -(a.dot b) := by
  unfold dot
  simp only [neg_x, neg_y, neg_z]
  ring

lemma Vec3.magnitude2_div (v : Vec3) (r : ℝ) :
    (v / r).magnitude2 = v.magnitude2 / (r * r) := by
  unfold magnitude2 dot
  simp only [div_x, div_y, div_z]
  rw [div_mul_div_comm, div_mul_div_comm, div_mul_div_comm, div_add_div_same,
    div_add_div_same]

/-- C4: a ray that misses all scene geometry at positive depth yields the
background gradient `(1-t)*(1,1,1) + t*(0.5,0.7,1.0)` with
`t = 0.5*(normalize(direction).y + 1)`; direction `(0,1,0)` gives exactly
`(0.5,0.7,1.0)` and `(0,-1,0)` gives exactly `(1,1,1)`. -/
theorem ray_colour_background (ray : Ray) (w : World) (d : ℕ) (rnds : ℕ → RandDraw)
    (hmiss : w.hit ray 0.001 ⊤ = none) :
    ray_colour ray w (d + 1) rnds =
      Colour.new
        ((1 - 0.5 * (ray.direction.normalize.y + 1)) * 1
          + 0.5 * (ray.direction.normalize.y + 1) * 0.5)
        ((1 - 0.5 * (ray.direction.normalize.y + 1)) * 1
          + 0.5 * (ray.direction.normalize.y + 1) * 0.7)
        ((1 - 0.5 * (ray.direction.normalize.y + 1)) * 1
          + 0.5 * (ray.direction.normalize.y + 1) * 1.0)
    ∧ (ray.direction = Vec3.mk 0 1 0 →
        ray_colour ray w (d + 1) rnds = Colour.new 0.5 0.7 1.0)
    ∧ (ray.direction = Vec3.mk 0 (-1) 0 →
        ray_colour ray w (d + 1) rnds = Colour.new 1 1 1) := by
  have hmain : ray_colour ray w (d + 1) rnds =
      Colour.new ((1 - 0.5 * (ray.direction.normalize.y + 1))
          + 0.5 * (ray.direction.normalize.y + 1) * 0.5)
        ((1 - 0.5 * (ray.direction.normalize.y + 1))
          + 0.5 * (ray.direction.normalize.y + 1) * 0.7)
        ((1 - 0.5 * (ray.direction.normalize.y + 1))
          + 0.5 * (ray.direction.normalize.y + 1) * 1.0) := by
    simp only [ray_colour, hmiss]
  refine ⟨by rw [hmain]; congr 1 <;> ring, fun hdir => ?_, fun hdir => ?_⟩
  · rw [hmain, hdir]
    norm_num [Vec3.normalize, Vec3.magnitude, Vec3.magnitude2, Vec3.dot,
      Real.sqrt_one, Colour.new]
  · rw [hmain, hdir]
    norm_num [Vec3.normalize, Vec3.magnitude, Vec3.magnitude2, Vec3.dot,
      Real.sqrt_one, Colour.new]

/-- C4 witness: the empty scene misses every ray; the gradient instances at
directions `(0,1,0)` and `(0,-1,0)`. -/
theorem ray_colour_background_witness :
    ray_colour ⟨⟨0, 0, 0⟩, ⟨0, 1, 0⟩⟩ (World.mk []) 1 (fun _ => ⟨⟨0, 0, 0⟩, ⟨0, 0, 0⟩, 0⟩) =
      Colour.new 0.5 0.7 1.0
    ∧ ray_colour ⟨⟨0, 0, 0⟩, ⟨0, -1, 0⟩⟩ (World.mk []) 1 (fun _ => ⟨⟨0, 0, 0⟩, ⟨0, 0, 0⟩, 0⟩) =
      Colour.new 1 1 1 :=
  ⟨(ray_colour_background ⟨⟨0, 0, 0⟩, ⟨0, 1, 0⟩⟩ (World.mk []) 0 _ rfl).2.1 rfl,
   (ray_colour_background ⟨⟨0, 0, 0⟩, ⟨0, -1, 0⟩⟩ (World.mk []) 0 _ rfl).2.2 rfl⟩

lemma quad_root_zero_sub (a hb c sq : ℝ) (ha : a ≠ 0) (hs : sq * sq = hb * hb - a * c) :
    a * (((-hb - sq) / a) * ((-hb - sq) / a)) + 2 * hb * ((-hb - sq) / a) + c = 0 := by
  field_simp
  linear_combination a ^ 2 * hs

lemma quad_root_zero_add (a hb c sq : ℝ) (ha : a ≠ 0) (hs : sq * sq = hb * hb - a * c) :
    a * (((-hb + sq) / a) * ((-hb + sq) / a)) + 2 * hb * ((-hb + sq) / a) + c = 0 := by
  field_simp
  linear_combination a ^ 2 * hs

lemma hit_point_on_sphere (s : Sphere) (ray : Ray) (root : ℝ)
    (hroot : ray.direction.magnitude2 * (root * root) +
        2 * ((ray.origin - s.center).dot ray.direction) * root +
        ((ray.origin - s.center).magnitude2 - s.radius * s.radius) = 0) :
    (ray.at' root - s.center).magnitude2 = s.radius * s.radius := by
  unfold Ray.at' at *
  unfold Vec3.magnitude2 Vec3.dot at *
  simp only [Vec3.add_x, Vec3.add_y, Vec3.add_z, Vec3.sub_x, Vec3.sub_y, Vec3.sub_z,
    Vec3.smul_x, Vec3.smul_y, Vec3.smul_z] at *
  linear_combination hroot

/-- C7: every record `Sphere.hit` produces (positive radius, nonzero ray
direction) has a unit normal oriented against the ray, with `front_face`
true exactly when the ray direction opposes the outward normal
`(p - center)/radius`, the stored normal being the outward normal then and
its negation otherwise. -/
theorem sphere_hit_record_normal (s : Sphere) (ray : Ray) (t_min : ℝ)
    (t_max : WithTop ℝ) (rec : HitRecord) (hrad : 0 < s.radius)
    (hdir : ray.direction.magnitude2 ≠ 0) (h : s.hit ray t_min t_max = some rec) :
    rec.normal.magnitude2 = 1
    ∧ ray.direction.dot rec.normal ≤ 0
    ∧ (rec.front_face ↔ ray.direction.dot ((rec.p - s.center) / s.radius) < 0)
    ∧ (rec.front_face → rec.normal = (rec.p - s.center) / s.radius)
    ∧ (¬rec.front_face → rec.normal = -((rec.p - s.center) / s.radius)) := by
  have key : ∀ root : ℝ,
      ray.direction.magnitude2 * (root * root) +
          2 * ((ray.origin - s.center).dot ray.direction) * root +
          ((ray.origin - s.center).magnitude2 - s.radius * s.radius) = 0 →
      (HitRecord.new root (ray.at' root) ((ray.at' root - s.center) / s.radius)
          ray s.material).normal.magnitude2 = 1
      ∧ ray.direction.dot (HitRecord.new root (ray.at' root)
          ((ray.at' root - s.center) / s.radius) ray s.material).normal ≤ 0
      ∧ ((HitRecord.new root (ray.at' root) ((ray.at' root - s.center) / s.radius)
            ray s.material).front_face ↔
          ray.direction.dot (((HitRecord.new root (ray.at' root)
            ((ray.at' root - s.center) / s.radius) ray s.material).p - s.center) /
              s.radius) < 0)
      ∧ ((HitRecord.new root (ray.at' root) ((ray.at' root - s.center) / s.radius)
            ray s.material).front_face →
          (HitRecord.new root (ray.at' root) ((ray.at' root - s.center) / s.radius)
            ray s.material).normal =
            ((HitRecord.new root (ray.at' root) ((ray.at' root - s.center) / s.radius)
              ray s.material).p - s.center) / s.radius)
      ∧ (¬(HitRecord.new root (ray.at' root) ((ray.at' root - s.center) / s.radius)
            ray s.material).front_face →
          (HitRecord.new root (ray.at' root) ((ray.at' root - s.center) / s.radius)
            ray s.material).normal =
            -(((HitRecord.new root (ray.at' root) ((ray.at' root - s.center) / s.radius)
              ray s.material).p - s.center) / s.radius)) := by
    intro root hroot
    have hunit : ((ray.at' root - s.center) / s.radius).magnitude2 = 1 := by
      rw [Vec3.magnitude2_div, hit_point_on_sphere s ray root hroot]
      exact div_self (by positivity)
    simp only [HitRecord.new]
    by_cases hf : ray.direction.dot ((ray.at' root - s.center) / s.radius) < 0
    · simp only [if_pos hf]
      refine ⟨hunit, le_of_lt hf, ?_, ?_, ?_⟩
      · first | trivial | exact Iff.rfl
      · first | trivial | exact fun _ => trivial | exact fun _ => rfl
      · first | trivial | exact fun _ => trivial | exact fun hnf => absurd hf hnf
    · simp only [if_neg hf]
      refine ⟨by rw [Vec3.magnitude2_neg]; exact hunit, ?_, ?_, ?_, ?_⟩
      · rw [Vec3.dot_neg_right]
        push_neg at hf
        linarith
      · first | trivial | exact Iff.rfl
      · first | trivial | exact fun _ => trivial | exact fun hff => absurd hff hf
      · first | trivial | exact fun _ => trivial | exact fun _ => rfl
  have hdisc_nonneg : ∀ h1 : ¬((ray.origin - s.center).dot ray.direction *
        (ray.origin - s.center).dot ray.direction -
        ray.direction.magnitude2 *
          ((ray.origin - s.center).magnitude2 - s.radius * s.radius) < 0),
      Real.sqrt ((ray.origin - s.center).dot ray.direction *
          (ray.origin - s.center).dot ray.direction -
          ray.direction.magnitude2 *
            ((ray.origin - s.center).magnitude2 - s.radius * s.radius)) *
        Real.sqrt ((ray.origin - s.center).dot ray.direction *
          (ray.origin - s.center).dot ray.direction -
          ray.direction.magnitude2 *
            ((ray.origin - s.center).magnitude2 - s.radius * s.radius)) =
        (ray.origin - s.center).dot ray.direction *
          (ray.origin - s.center).dot ray.direction -
          ray.direction.magnitude2 *
            ((ray.origin - s.center).magnitude2 - s.radius * s.radius) :=
    fun h1 => Real.mul_self_sqrt (not_lt.mp h1)
  simp only [Sphere.hit] at h
  split_ifs at h with h1 h2 h3
  · rw [Option.some.injEq] at h
    subst h
    exact key _ (by
      have hroot := quad_root_zero_add ray.direction.magnitude2
        ((ray.origin - s.center).dot ray.direction)
        ((ray.origin - s.center).magnitude2 - s.radius * s.radius)
        (Real.sqrt _) hdir (by rw [hdisc_nonneg h1])
      linarith [hroot])
  · rw [Option.some.injEq] at h
    subst h
    exact key _ (by
      have hroot := quad_root_zero_sub ray.direction.magnitude2
        ((ray.origin - s.center).dot ray.direction)
        ((ray.origin - s.center).magnitude2 - s.radius * s.radius)
        (Real.sqrt _) hdir (by rw [hdisc_nonneg h1])
      linarith [hroot])

/-- C7 witness: the invariant at the record `sphere_a` produces for `ray_z`. -/
theorem sphere_hit_record_normal_witness :
    rec_a.normal.magnitude2 = 1
    ∧ ray_z.direction.dot rec_a.normal ≤ 0
    ∧ (rec_a.front_face ↔
        ray_z.direction.dot ((rec_a.p - sphere_a.center) / sphere_a.radius) < 0)
    ∧ (rec_a.front_face → rec_a.normal = (rec_a.p - sphere_a.center) / sphere_a.radius)
    ∧ (¬rec_a.front_face →
        rec_a.normal = -((rec_a.p - sphere_a.center) / sphere_a.radius)) :=
  sphere_hit_record_normal sphere_a ray_z 0 ⊤ rec_a (by norm_num [sphere_a])
    (by norm_num [ray_z, Vec3.magnitude2, Vec3.dot]) sphere_a_hit_top

lemma Vec3.magnitude2_normalize (v : Vec3) (h : v.magnitude2 ≠ 0) :
    v.normalize.magnitude2 = 1 := by
  unfold normalize magnitude
  rw [Vec3.magnitude2_div, Real.mul_self_sqrt (magnitude2_nonneg v)]
  exact div_self h

lemma Vec3.dot_sq_le_mag (a b : Vec3) :
    a.dot b * a.dot b ≤ a.magnitude2 * b.magnitude2 := by
  unfold magnitude2 dot
  nlinarith [sq_nonneg (a.x * b.y - a.y * b.x), sq_nonneg (a.x * b.z - a.z * b.x),
    sq_nonneg (a.y * b.z - a.z * b.y)]

lemma reflectance_one_div (cosine ior : ℝ) (h : 0 < ior) :
    reflectance cosine (1 / ior) = reflectance cosine ior := by
  unfold reflectance
  have h1 : ior ≠ 0 := ne_of_gt h
  have h2 : (1 : ℝ) + ior ≠ 0 := by positivity
  have h3 : (1 : ℝ) + 1 / ior ≠ 0 := by positivity
  have key : (1 - 1 / ior) / (1 + 1 / ior) = -((1 - ior) / (1 + ior)) := by
    field_simp
    exact Or.inl (by ring)
  rw [key, neg_sq]

section

attribute [local instance] Classical.propDecidable

/-- C6: the dielectric scatter reflects whenever total internal reflection
holds (`refraction_ratio * sin_theta > 1`), regardless of the draw, and
otherwise reflects exactly when the uniform draw falls under the Schlick
reflectance with `r0 = ((1-ior)/(1+ior))^2`, else refracts by the Snell
decomposition; `cos_theta = min 1 (-dot(d,n))` for the unit incoming
direction `d` and unit normal `n`, attenuation is white. -/
theorem dielectric_scatter_branches (ior : ℝ) (ray : Ray) (hr : HitRecord)
    (rnd : RandDraw) (hior : 0 < ior) (hdir : ray.direction.magnitude2 ≠ 0)
    (hn : hr.normal.magnitude2 = 1) :
    (Material.Dielectric ior).scatter ray hr rnd =
      some ⟨Ray.new hr.p
        (if 1 < (if hr.front_face then 1 / ior else ior) *
              Real.sqrt (1 - min 1 (-(ray.direction.normalize.dot hr.normal)) ^ 2) then
          reflect ray.direction.normalize hr.normal
        else if rnd.uniform < ((1 - ior) / (1 + ior)) ^ 2 +
              (1 - ((1 - ior) / (1 + ior)) ^ 2) *
                (1 - min 1 (-(ray.direction.normalize.dot hr.normal))) ^ 5 then
          reflect ray.direction.normalize hr.normal
        else refract ray.direction.normalize hr.normal
          (if hr.front_face then 1 / ior else ior)),
        Colour.new 1 1 1⟩ := by
  simp only [Material.scatter]
  set dn := ray.direction.normalize.dot hr.normal with hdn
  have hd : ray.direction.normalize.magnitude2 = 1 := Vec3.magnitude2_normalize _ hdir
  have hsq : dn * dn ≤ 1 := by
    have hcs := Vec3.dot_sq_le_mag ray.direction.normalize hr.normal
    rw [hd, hn, ← hdn] at hcs
    simpa using hcs
  have hle1 : dn ≤ 1 := by nlinarith
  have hgem : (-1 : ℝ) ≤ dn := by nlinarith
  have hcos : -(min dn 1) = min 1 (-dn) := by
    rw [min_eq_left hle1, min_eq_right (by linarith)]
  have hsin : Real.sqrt (1 - -(min dn 1) * -(min dn 1)) =
      Real.sqrt (1 - min 1 (-dn) ^ 2) := by
    congr 1
    rw [hcos]
    ring
  have hrefl : reflectance (-(min dn 1)) (if hr.front_face then 1 / ior else ior) =
      ((1 - ior) / (1 + ior)) ^ 2 +
        (1 - ((1 - ior) / (1 + ior)) ^ 2) * (1 - min 1 (-dn)) ^ 5 := by
    rw [hcos]
    by_cases hf : hr.front_face
    · rw [if_pos hf, reflectance_one_div _ _ hior]
      rfl
    · rw [if_neg hf]
      rfl
  by_cases htir :
      1 < (if hr.front_face then 1 / ior else ior) * Real.sqrt (1 - min 1 (-dn) ^ 2)
  · rw [if_pos (Or.inl (show 1 < (if hr.front_face then 1 / ior else ior) *
        Real.sqrt (1 - -(min dn 1) * -(min dn 1)) by rw [hsin]; exact htir)),
      if_pos htir]
  · rw [if_neg htir]
    by_cases hu : rnd.uniform < ((1 - ior) / (1 + ior)) ^ 2 +
        (1 - ((1 - ior) / (1 + ior)) ^ 2) * (1 - min 1 (-dn)) ^ 5
    · rw [if_pos (Or.inr (show rnd.uniform <
          reflectance (-(min dn 1)) (if hr.front_face then 1 / ior else ior) by
            rw [hrefl]; exact hu)),
        if_pos hu]
    · rw [if_neg (by
        rintro (hA | hB)
        · exact htir (by rw [← hsin]; exact hA)
        · exact hu (by rw [← hrefl]; exact hB)),
        if_neg hu]

/-- The ray from the origin straight down the `z` axis. -/
noncomputable def ray_down : Ray := ⟨⟨0, 0, 0⟩, ⟨0, 0, -1⟩⟩

/-- A front-face hit record with normal `(0,0,1)`. -/
noncomputable def hr_front : HitRecord := ⟨⟨0, 0, 0⟩, ⟨0, 0, 1⟩, 1, True, mat_a⟩

/-- A draw whose uniform component is `0.5`. -/
noncomputable def rnd_half : RandDraw := ⟨⟨0, 0, 0⟩, ⟨0, 0, 0⟩, 0.5⟩

/-- C6 witness: the dielectric branch theorem at `ior = 1.5`, a unit
downward ray and a unit front-face normal. -/
theorem dielectric_scatter_branches_witness :
    ((0 : ℝ) < 1.5 ∧ ray_down.direction.magnitude2 ≠ 0 ∧
      hr_front.normal.magnitude2 = 1)
    ∧ (Material.Dielectric 1.5).scatter ray_down hr_front rnd_half =
      some ⟨Ray.new hr_front.p
        (if 1 < (if hr_front.front_face then 1 / 1.5 else 1.5) *
              Real.sqrt (1 - min 1 (-(ray_down.direction.normalize.dot hr_front.normal)) ^ 2) then
          reflect ray_down.direction.normalize hr_front.normal
        else if rnd_half.uniform < ((1 - 1.5) / (1 + 1.5)) ^ 2 +
              (1 - ((1 - 1.5) / (1 + 1.5)) ^ 2) *
                (1 - min 1 (-(ray_down.direction.normalize.dot hr_front.normal))) ^ 5 then
          reflect ray_down.direction.normalize hr_front.normal
        else refract ray_down.direction.normalize hr_front.normal
          (if hr_front.front_face then 1 / 1.5 else 1.5)),
        Colour.new 1 1 1⟩ := by
  have h1 : (0 : ℝ) < 1.5 := by norm_num
  have h2 : ray_down.direction.magnitude2 ≠ 0 := by
    norm_num [ray_down, Vec3.magnitude2, Vec3.dot]
  have h3 : hr_front.normal.magnitude2 = 1 := by
    norm_num [hr_front, Vec3.magnitude2, Vec3.dot]
  exact ⟨⟨h1, h2, h3⟩, dielectric_scatter_branches 1.5 ray_down hr_front rnd_half h1 h2 h3⟩

end
